import Mathlib

/-!
Shallow embedding of the constraint-evaluation kernel of a STARK prover
(source: src/prover/src/monolith/constraints/evaluator.rs).

The evaluator's collaborators (AIR, trace table, evaluation domain, divisor,
periodic-value table, output table) are declared in other crates or modules of
the repository and are not part of the given source; they are modelled here
abstractly, following the specification's description of their interfaces.
The code of the evaluator itself (construction, the evaluate entry point, the
sequential and concurrent fill loops, transition and boundary constraint
merging) is translated directly from the source.

Rust panics (assert failure, out-of-bounds indexing, debug degree-check
failure) are modelled by explicit outcome constructors: a panic that happens
before the output table exists carries no table, while the debug degree-check
failure, which fires only after the table has been completely filled, carries
the completed table.
-/

namespace Winterfell

/-- Two-row window (current, next) into the execution trace at a step. -/
structure EvaluationFrame (F : Type) where
  current : List F
  next : List F

/-- Modelled from the spec: the trace collaborator (TraceTable) is outside the
given source; it exposes len, width and read_frame_into, the latter filling a
two-row frame at an LDE-domain step.  The fill is modelled as a function
returning the frame. -/
structure TraceTable (F : Type) where
  len : Nat
  width : Nat
  read_frame : Nat → EvaluationFrame F

/-- Modelled from the spec: the domain collaborator (StarkDomain) is outside
the given source; it exposes the LDE-domain size, the constraint-evaluation
domain size, and the translation of a constraint-evaluation step to the
corresponding LDE step and domain value x. -/
structure StarkDomain (F : Type) where
  lde_domain_size : Nat
  ce_domain_size : Nat
  ce_step_to_lde_info : Nat → Nat × F

/-- Modelled from the spec: the periodic-value table is built once from the
AIR and looked up by evaluation step. -/
structure PeriodicValueTable (F : Type) where
  get_row : Nat → List F

/-- Modelled from the spec: a group of transition constraints sharing the same
divisor, able to merge its subset of raw evaluations into one extension-field
value using its per-constraint random coefficients and the domain value x. -/
structure TransitionConstraintGroup (F E : Type) where
  merge_evaluations : List F → F → E

/-- Modelled from the spec: a group of boundary constraints sharing one
divisor and one degree-adjustment exponent; evaluate takes the current trace
row, the step, the domain value x and the (possibly cached) adjustment power
xp, and returns the merged group value. -/
structure BoundaryConstraintGroup (F E : Type) where
  degree_adjustment : Nat
  evaluate : List F → Nat → F → E → E

/-- Modelled from the spec: the part of the AIR context consumed by the
evaluator: the trace length and the declared transition-constraint degrees
(each degree descriptor is modelled by its get_evaluation_degree function of
the trace length). -/
structure AirContext where
  trace_length : Nat
  transition_constraint_degrees : List (Nat → Nat)

/-- Modelled from the spec: a boundary-constraint group as returned by the
AIR, before conversion: it exposes its divisor, and its conversion into a
prover-side BoundaryConstraintGroup threads the shared twiddle-factor
memoization map (type M). -/
structure RawBoundaryGroup (F E D M : Type) where
  divisor : D
  build : AirContext → M → BoundaryConstraintGroup F E × M

/-- Modelled from the spec: the AIR collaborator, restricted to the methods
the evaluator consumes.  evaluate_transition writes every raw transition
constraint evaluation into a caller-supplied buffer; since a Rust slice write
cannot change the buffer's length, the model carries that fact as a field. -/
structure Air (F E D M TP BP : Type) where
  context : AirContext
  num_transition_constraints : Nat
  evaluate_transition : EvaluationFrame F → List F → List F → List F
  evaluate_transition_len :
    ∀ fr pv buf, (evaluate_transition fr pv buf).length = buf.length
  get_transition_constraints : TP → List (TransitionConstraintGroup F E)
  get_boundary_constraints : BP → List (RawBoundaryGroup F E D M)
  periodic_table : PeriodicValueTable F

/-- Modelled from the spec: the public-coin collaborator exposes two
independent pseudo-random coefficient streams. -/
structure PublicCoin (TP BP : Type) where
  get_transition_coefficient_prng : TP
  get_boundary_coefficient_prng : BP

/-- Field and collaborator operations consumed by the evaluator but defined
outside the given source: base-field zero, extension-field zero and addition,
exponentiation x.exp, the base-to-extension embedding E::from, the shared
transition-constraint divisor constructor ConstraintDivisor::from_transition
(modelled from the spec: it builds (x^steps - 1)/(x - x_last)), and the empty
twiddle-factor map HashMap::new(). -/
structure Ops (F E D M : Type) where
  fzero : F
  ezero : E
  eadd : E → E → E
  fexp : F → Nat → F
  efrom : F → E
  from_transition : AirContext → D
  empty_twiddle_map : M

/-- Modelled from the spec: the output table; one row per constraint
evaluation step, columns in divisor order (merged transition value first, then
one column per boundary group); in verification mode it also stores the raw
per-constraint transition evaluations per step and the expected degrees
recorded at construction (always-present fields, empty when the mode is
off). -/
structure ConstraintEvaluationTable (F E D : Type) where
  rows : List (List E)
  divisors : List D
  t_evaluations : List (List F)
  expected_degrees : List Nat
deriving DecidableEq

/-- Row count of the output table. -/
def ConstraintEvaluationTable.num_rows {F E D : Type}
    (t : ConstraintEvaluationTable F E D) : Nat :=
  t.rows.length

/-- Column count of the output table: one column per divisor. -/
def ConstraintEvaluationTable.num_columns {F E D : Type}
    (t : ConstraintEvaluationTable F E D) : Nat :=
  t.divisors.length

/-- Modelled from the spec: writing a completed row into the table at the
given step. -/
def ConstraintEvaluationTable.update_row {F E D : Type}
    (t : ConstraintEvaluationTable F E D) (step : Nat) (row : List E) :
    ConstraintEvaluationTable F E D :=
  { t with rows := t.rows.set step row }

/-- Modelled from the spec: recording the raw per-constraint transition
evaluations of one step (verification mode only). -/
def ConstraintEvaluationTable.update_transition_evaluations {F E D : Type}
    (t : ConstraintEvaluationTable F E D) (step : Nat) (evals : List F) :
    ConstraintEvaluationTable F E D :=
  { t with t_evaluations := t.t_evaluations.set step evals }

/-- Outcome of a call to ConstraintEvaluator.evaluate.  length_mismatch is the
assert failure on trace length vs LDE-domain size (it aborts before the output
table exists, so it carries no table); boundary_panic is the out-of-bounds
indexing of boundary_constraints[0] inside the fill loop; degree_mismatch is
the debug-mode degree-check failure, which happens only after the table has
been completely filled and so carries the completed table. -/
inductive EvalOutcome (F E D : Type) where
  | length_mismatch
  | boundary_panic
  | degree_mismatch (table : ConstraintEvaluationTable F E D)
  | ok (table : ConstraintEvaluationTable F E D)
deriving DecidableEq

/-- Compile-time configuration of the build, made explicit: whether
debug_assertions (verification mode) are on, whether the concurrent feature is
enabled, and the rayon worker-pool size. -/
structure EvalConfig where
  debug_assertions : Bool
  concurrent_feature : Bool
  num_workers : Nat

/-- Minimum constraint-evaluation-domain size for concurrent evaluation. -/
def MIN_CONCURRENT_DOMAIN_SIZE : Nat := 8192

/-- The constraint evaluator: the AIR, the boundary and transition constraint
groups, the periodic-value table, the divisor list, and (verification mode)
the expected transition-constraint degrees recorded at construction. -/
structure ConstraintEvaluator (F E D M TP BP : Type) where
  air : Air F E D M TP BP
  boundary_constraints : List (BoundaryConstraintGroup F E)
  transition_constraints : List (TransitionConstraintGroup F E)
  periodic_values : PeriodicValueTable F
  divisors : List D
  transition_constraint_degrees : List Nat

/-- The boundary-group construction loop of ConstraintEvaluator::new: for each
raw group, in order, push its divisor and convert it, threading the shared
twiddle-factor map.  Returns (converted groups, pushed divisors, final map). -/
def build_boundary {F E D M : Type} (ctx : AirContext) :
    List (RawBoundaryGroup F E D M) → M →
    List (BoundaryConstraintGroup F E) × List D × M
  | [], m => ([], [], m)
  | g :: gs, m =>
    let built := g.build ctx m
    let rest := build_boundary ctx gs built.2
    (built.1 :: rest.1, g.divisor :: rest.2.1, rest.2.2)

/-- ConstraintEvaluator::new: collect expected degrees, build transition
constraint groups from the transition coefficient stream, build the periodic
value table, set the shared transition divisor first in the divisor list, then
build boundary groups from the boundary coefficient stream, appending one
divisor per group in order and threading the twiddle map. -/
def ConstraintEvaluator.new {F E D M TP BP : Type} (ops : Ops F E D M)
    (air : Air F E D M TP BP) (coin : PublicCoin TP BP) :
    ConstraintEvaluator F E D M TP BP :=
  let transition_constraint_degrees :=
    air.context.transition_constraint_degrees.map
      (fun d => d air.context.trace_length)
  let transition_constraints :=
    air.get_transition_constraints coin.get_transition_coefficient_prng
  let periodic_values := air.periodic_table
  let built :=
    build_boundary air.context
      (air.get_boundary_constraints coin.get_boundary_coefficient_prng)
      ops.empty_twiddle_map
  { air := air
    boundary_constraints := built.1
    transition_constraints := transition_constraints
    periodic_values := periodic_values
    divisors := ops.from_transition air.context :: built.2.1
    transition_constraint_degrees := transition_constraint_degrees }

/-- The loop body of evaluate_boundary_constraints: walk the groups zipped
with the output slots; recompute the degree-adjustment power xp only when the
group's degree_adjustment differs from the previous one; slots beyond the
group count are left untouched, groups beyond the slot count are skipped. -/
def boundary_loop {F E D M : Type} (ops : Ops F E D M) (state : List F)
    (x : F) (step : Nat) :
    Nat → E → List (BoundaryConstraintGroup F E) → List E → List E
  | _, _, [], rest => rest
  | _, _, _ :: _, [] => []
  | da, xp, g :: gs, _ :: rs =>
    if g.degree_adjustment = da then
      g.evaluate state step x xp :: boundary_loop ops state x step da xp gs rs
    else
      g.evaluate state step x (ops.efrom (ops.fexp x g.degree_adjustment)) ::
        boundary_loop ops state x step g.degree_adjustment
          (ops.efrom (ops.fexp x g.degree_adjustment)) gs rs

/-- ConstraintEvaluator::evaluate_boundary_constraints: reads the
degree_adjustment of boundary_constraints[0] unconditionally before the loop
(an out-of-bounds panic, modelled as none, when there are no boundary
groups), then runs the cached loop over all groups. -/
def evaluate_boundary_constraints {F E D M : Type} (ops : Ops F E D M)
    (groups : List (BoundaryConstraintGroup F E)) (state : List F) (x : F)
    (step : Nat) (result : List E) : Option (List E) :=
  match groups with
  | [] => none
  | g :: _ =>
    some (boundary_loop ops state x step g.degree_adjustment
      (ops.efrom (ops.fexp x g.degree_adjustment)) groups result)

/-- Modelled from the spec: the per-group recomputation baseline the caching
optimization is compared against - identical to boundary_loop except that
x^degree_adjustment is recomputed independently for every group. -/
def boundary_loop_no_cache {F E D M : Type} (ops : Ops F E D M)
    (state : List F) (x : F) (step : Nat) :
    List (BoundaryConstraintGroup F E) → List E → List E
  | [], rest => rest
  | _ :: _, [] => []
  | g :: gs, _ :: rs =>
    g.evaluate state step x (ops.efrom (ops.fexp x g.degree_adjustment)) ::
      boundary_loop_no_cache ops state x step gs rs

/-- Modelled from the spec: evaluate_boundary_constraints with the caching
optimization disabled; used only as the comparison point of the caching
equivalence claim. -/
def evaluate_boundary_constraints_no_cache {F E D M : Type}
    (ops : Ops F E D M) (groups : List (BoundaryConstraintGroup F E))
    (state : List F) (x : F) (step : Nat) (result : List E) :
    Option (List E) :=
  match groups with
  | [] => none
  | _ :: _ => some (boundary_loop_no_cache ops state x step groups result)

/-- ConstraintEvaluator::evaluate_transition_constraints: zero the raw-
evaluation buffer, fetch the periodic-value row for the step, let the AIR fill
the buffer, then fold all transition-constraint groups, summing each group's
merge of the raw evaluations with the domain value x.  Returns the merged
value together with the buffer contents (the buffer is reused by the caller
and, in verification mode, recorded into the table). -/
def evaluate_transition_constraints {F E D M TP BP : Type}
    (ops : Ops F E D M) (ev : ConstraintEvaluator F E D M TP BP)
    (frame : EvaluationFrame F) (x : F) (step : Nat)
    (evaluations : List F) : E × List F :=
  let zeroed := evaluations.map (fun _ => ops.fzero)
  let filled :=
    ev.air.evaluate_transition frame (ev.periodic_values.get_row step) zeroed
  (ev.transition_constraints.foldl
      (fun result group => ops.eadd result (group.merge_evaluations filled x))
      ops.ezero,
    filled)

/-- One iteration of the fill loop at a given global step, threading the
reusable buffers and the table: translate the step, read the frame, put the
merged transition evaluation in slot 0, (sequential verification mode only)
record the raw transition evaluations, fill slots 1.. with the boundary-group
evaluations, and write the completed row into the table at the step. -/
def eval_step {F E D M TP BP : Type} (ops : Ops F E D M)
    (ev : ConstraintEvaluator F E D M TP BP) (trace : TraceTable F)
    (domain : StarkDomain F) (record_debug : Bool)
    (st : List E × List F × ConstraintEvaluationTable F E D) (step : Nat) :
    Option (List E × List F × ConstraintEvaluationTable F E D) :=
  let info := domain.ce_step_to_lde_info step
  let frame := trace.read_frame info.1
  let tr := evaluate_transition_constraints ops ev frame info.2 step st.2.1
  let table1 :=
    if record_debug then st.2.2.update_transition_evaluations step tr.2
    else st.2.2
  match evaluate_boundary_constraints ops ev.boundary_constraints
      frame.current info.2 step (st.1.drop 1) with
  | none => none
  | some tail =>
    some (tr.1 :: tail, tr.2, table1.update_row step (tr.1 :: tail))

/-- Runs the fill loop body over a list of global steps, short-circuiting on a
panic. -/
def process_steps {F E D M TP BP : Type} (ops : Ops F E D M)
    (ev : ConstraintEvaluator F E D M TP BP) (trace : TraceTable F)
    (domain : StarkDomain F) (record_debug : Bool) :
    List Nat → List E × List F × ConstraintEvaluationTable F E D →
    Option (List E × List F × ConstraintEvaluationTable F E D)
  | [], st => some st
  | s :: rest, st =>
    match eval_step ops ev trace domain record_debug st s with
    | none => none
    | some st2 => process_steps ops ev trace domain record_debug rest st2

/-- ConstraintEvaluator::evaluate_sequential: allocate the frame and the two
reusable buffers once (one slot per table column, one slot per transition
constraint), then process every step 0 <= step < num_rows in increasing
order. -/
def evaluate_sequential {F E D M TP BP : Type} (ops : Ops F E D M)
    (ev : ConstraintEvaluator F E D M TP BP) (record_debug : Bool)
    (trace : TraceTable F) (domain : StarkDomain F)
    (evaluation_table : ConstraintEvaluationTable F E D) :
    Option (ConstraintEvaluationTable F E D) :=
  (process_steps ops ev trace domain record_debug
      (List.range evaluation_table.num_rows)
      (List.replicate evaluation_table.num_columns ops.ezero,
        List.replicate ev.air.num_transition_constraints ops.fzero,
        evaluation_table)).map
    (fun st => st.2.2)

/-- usize::next_power_of_two: the smallest power of two greater than or equal
to the argument (1 for arguments below 2). -/
def next_power_of_two (n : Nat) : Nat :=
  if h : n ≤ 1 then 1 else 2 * next_power_of_two ((n + 1) / 2)
termination_by n
decreasing_by omega

/-- Modelled from the spec: ConstraintEvaluationTable::fragments splits the
row range [0, num_rows) into the requested number of disjoint contiguous
fragments whose union covers the range exactly; each fragment is represented
by its list of global steps (local row i of a fragment at offset off is global
step i + off). -/
def fragment_steps (off n : Nat) : Nat → List (List Nat)
  | 0 => []
  | f + 1 =>
    ((List.range ((n + f) / (f + 1))).map (· + off)) ::
      fragment_steps (off + (n + f) / (f + 1)) (n - (n + f) / (f + 1)) f

/-- One fragment-processing task of the parallel fan-out: with its own fresh
buffers (one slot per table column, one slot per transition constraint), run
the identical per-step logic over the fragment's global steps, writing into
the fragment's disjoint rows of the threaded table; a fragment panic panics
the whole call. -/
def process_fragment {F E D M TP BP : Type} (ops : Ops F E D M)
    (ev : ConstraintEvaluator F E D M TP BP) (trace : TraceTable F)
    (domain : StarkDomain F) (num_evaluation_columns : Nat)
    (acc : Option (ConstraintEvaluationTable F E D)) (chunk : List Nat) :
    Option (ConstraintEvaluationTable F E D) :=
  match acc with
  | none => none
  | some t =>
    (process_steps ops ev trace domain false chunk
        (List.replicate num_evaluation_columns ops.ezero,
          List.replicate ev.air.num_transition_constraints ops.fzero,
          t)).map
      (fun st => st.2.2)

/-- ConstraintEvaluator::evaluate_concurrent: split the table into
next_power_of_two(worker count) disjoint contiguous fragments; each fragment
allocates its own fresh buffers and runs the identical per-step logic over its
row range with global step i + fragment offset; fragment writes target
disjoint rows, so the parallel fan-out/fan-in is modelled as a fold over the
fragments.  Verification-mode recording is not performed on this path. -/
def evaluate_concurrent {F E D M TP BP : Type} (ops : Ops F E D M)
    (ev : ConstraintEvaluator F E D M TP BP) (num_workers : Nat)
    (trace : TraceTable F) (domain : StarkDomain F)
    (evaluation_table : ConstraintEvaluationTable F E D) :
    Option (ConstraintEvaluationTable F E D) :=
  (fragment_steps 0 evaluation_table.num_rows
      (next_power_of_two num_workers)).foldl
    (process_fragment ops ev trace domain evaluation_table.num_columns)
    (some evaluation_table)

/-- The concurrency selector of ConstraintEvaluator::evaluate: the parallel
path is taken exactly when the concurrent feature is enabled and the
constraint-evaluation-domain size reaches the minimum threshold. -/
def uses_concurrent_path {F : Type} (cfg : EvalConfig)
    (domain : StarkDomain F) : Bool :=
  cfg.concurrent_feature &&
    decide (MIN_CONCURRENT_DOMAIN_SIZE ≤ domain.ce_domain_size)

/-- Modelled from the spec: ConstraintEvaluationTable::new allocates one
zeroed row per constraint-evaluation-domain step, stores the divisor list in
column order and, in verification mode, the expected transition-constraint
degrees and one (initially empty) raw-evaluation slot per step. -/
def initial_table {F E D M TP BP : Type} (ops : Ops F E D M)
    (ev : ConstraintEvaluator F E D M TP BP) (cfg : EvalConfig)
    (domain : StarkDomain F) : ConstraintEvaluationTable F E D :=
  { rows :=
      List.replicate domain.ce_domain_size
        (List.replicate ev.divisors.length ops.ezero)
    divisors := ev.divisors
    t_evaluations := List.replicate domain.ce_domain_size []
    expected_degrees :=
      if cfg.debug_assertions then ev.transition_constraint_degrees else [] }

/-- ConstraintEvaluator::evaluate: assert that the extended trace length
equals the LDE-domain size (a fatal abort, before the output table is even
allocated), allocate the output table, fill it via the concurrent path when
the concurrent feature is enabled and the constraint-evaluation domain is at
least MIN_CONCURRENT_DOMAIN_SIZE and via the sequential path otherwise, then,
in verification mode, cross-check the observed transition-constraint degrees
(the observed-degree computation lives outside the given source and is
modelled from the spec as the function argument observed_degrees applied to
the recorded raw evaluations) against the expected degrees recorded at
construction. -/
def ConstraintEvaluator.evaluate {F E D M TP BP : Type} (ops : Ops F E D M)
    (ev : ConstraintEvaluator F E D M TP BP) (cfg : EvalConfig)
    (observed_degrees : List (List F) → List Nat) (trace : TraceTable F)
    (domain : StarkDomain F) : EvalOutcome F E D :=
  if trace.len ≠ domain.lde_domain_size then .length_mismatch
  else
    let table0 := initial_table ops ev cfg domain
    let filled :=
      if uses_concurrent_path cfg domain then
        evaluate_concurrent ops ev cfg.num_workers trace domain table0
      else
        evaluate_sequential ops ev
          (cfg.debug_assertions && !cfg.concurrent_feature) trace domain
          table0
    match filled with
    | none => .boundary_panic
    | some t =>
      if cfg.debug_assertions then
        if observed_degrees t.t_evaluations = t.expected_degrees then .ok t
        else .degree_mismatch t
      else .ok t

/-- The raw per-constraint transition evaluations produced at a step: the AIR
fills a freshly zeroed buffer of one slot per transition constraint, given the
frame read at the translated LDE step and the periodic-value row of the
step. -/
def t_evals_at {F E D M TP BP : Type} (ops : Ops F E D M)
    (ev : ConstraintEvaluator F E D M TP BP) (trace : TraceTable F)
    (domain : StarkDomain F) (step : Nat) : List F :=
  ev.air.evaluate_transition
    (trace.read_frame (domain.ce_step_to_lde_info step).1)
    (ev.periodic_values.get_row step)
    (List.replicate ev.air.num_transition_constraints ops.fzero)

/-- The merged transition-constraint value at a step: the sum, over all
transition-constraint groups, of the group's merge of the raw evaluations with
the domain value x; no divisor division appears. -/
def merged_transition_at {F E D M TP BP : Type} (ops : Ops F E D M)
    (ev : ConstraintEvaluator F E D M TP BP) (trace : TraceTable F)
    (domain : StarkDomain F) (step : Nat) : E :=
  ev.transition_constraints.foldl
    (fun result group =>
      ops.eadd result
        (group.merge_evaluations (t_evals_at ops ev trace domain step)
          (domain.ce_step_to_lde_info step).2))
    ops.ezero

/-- The row the fill loop writes at a step of a table with num_cols columns:
the merged transition value in column 0, then the boundary-group values in
construction (= divisor) order, each computed from the current row only. -/
def row_at {F E D M TP BP : Type} (ops : Ops F E D M)
    (ev : ConstraintEvaluator F E D M TP BP) (trace : TraceTable F)
    (domain : StarkDomain F) (num_cols step : Nat) : List E :=
  merged_transition_at ops ev trace domain step ::
    ((ev.boundary_constraints.map
        (fun g =>
          g.evaluate
            (trace.read_frame (domain.ce_step_to_lde_info step).1).current
            step (domain.ce_step_to_lde_info step).2
            (ops.efrom
              (ops.fexp (domain.ce_step_to_lde_info step).2
                g.degree_adjustment)))).take (num_cols - 1) ++
      List.replicate (num_cols - 1 - ev.boundary_constraints.length)
        ops.ezero)

/-- The per-step table update performed by the fill loop: (verification mode)
record the raw transition evaluations, then write the completed row. -/
def upd_table {F E D M TP BP : Type} (ops : Ops F E D M)
    (ev : ConstraintEvaluator F E D M TP BP) (trace : TraceTable F)
    (domain : StarkDomain F) (record_debug : Bool) (num_cols : Nat)
    (table : ConstraintEvaluationTable F E D) (step : Nat) :
    ConstraintEvaluationTable F E D :=
  (if record_debug then
      table.update_transition_evaluations step
        (t_evals_at ops ev trace domain step)
    else table).update_row step (row_at ops ev trace domain num_cols step)

/-- The completely filled output table: one row per constraint-evaluation
step, each row as written by the per-step logic; raw transition evaluations
are recorded only in the sequential verification mode. -/
def filled_table {F E D M TP BP : Type} (ops : Ops F E D M)
    (ev : ConstraintEvaluator F E D M TP BP) (cfg : EvalConfig)
    (trace : TraceTable F) (domain : StarkDomain F) :
    ConstraintEvaluationTable F E D :=
  { rows :=
      (List.range domain.ce_domain_size).map
        (row_at ops ev trace domain ev.divisors.length)
    divisors := ev.divisors
    t_evaluations :=
      if cfg.debug_assertions && !cfg.concurrent_feature then
        (List.range domain.ce_domain_size).map (t_evals_at ops ev trace domain)
      else List.replicate domain.ce_domain_size []
    expected_degrees :=
      if cfg.debug_assertions then ev.transition_constraint_degrees else [] }

/-- The sequential path of ConstraintEvaluator::evaluate in isolation: the
same entry point with the concurrency selector forced to the sequential
branch. -/
def evaluate_forced_sequential {F E D M TP BP : Type} (ops : Ops F E D M)
    (ev : ConstraintEvaluator F E D M TP BP) (cfg : EvalConfig)
    (observed_degrees : List (List F) → List Nat) (trace : TraceTable F)
    (domain : StarkDomain F) : EvalOutcome F E D :=
  if trace.len ≠ domain.lde_domain_size then .length_mismatch
  else
    match evaluate_sequential ops ev
        (cfg.debug_assertions && !cfg.concurrent_feature) trace domain
        (initial_table ops ev cfg domain) with
    | none => .boundary_panic
    | some t =>
      if cfg.debug_assertions then
        if observed_degrees t.t_evaluations = t.expected_degrees then .ok t
        else .degree_mismatch t
      else .ok t

/-- Concrete field and collaborator operations over the integers, used to
exercise the development on closed inputs. -/
def cOps : Ops Int Int Nat Nat :=
  { fzero := 0
    ezero := 0
    eadd := fun a b => a + b
    fexp := fun x n => x ^ n
    efrom := fun a => a
    from_transition := fun ctx => ctx.trace_length
    empty_twiddle_map := 0 }

/-- Concrete AIR with one transition constraint and two boundary groups of
distinct degree adjustments. -/
def cAir : Air Int Int Nat Nat Unit Unit :=
  { context :=
      { trace_length := 4
        transition_constraint_degrees := [fun len => len - 1] }
    num_transition_constraints := 1
    evaluate_transition := fun fr _pv buf =>
      buf.map (fun _ => fr.current.headD 0 + fr.next.headD 0)
    evaluate_transition_len := by intro fr pv buf; simp
    get_transition_constraints := fun _ =>
      [{ merge_evaluations := fun evals x => evals.headD 0 * x }]
    get_boundary_constraints := fun _ =>
      [{ divisor := 7
         build := fun _ m =>
           ({ degree_adjustment := 2
              evaluate := fun state _step _x xp => (state.headD 0 - 7) * xp },
             m + 1) },
       { divisor := 9
         build := fun _ m =>
           ({ degree_adjustment := 3
              evaluate := fun state _step x xp => state.headD 0 * xp + x },
             m + 1) }]
    periodic_table := { get_row := fun s => [(s : Int)] } }

/-- Concrete AIR identical to cAir except that it returns no boundary
groups. -/
def cAirNoBoundary : Air Int Int Nat Nat Unit Unit :=
  { cAir with get_boundary_constraints := fun _ => [] }

/-- Concrete public coin (the coefficient streams are trivial here because the
concrete groups above carry their coefficients directly). -/
def cCoin : PublicCoin Unit Unit :=
  { get_transition_coefficient_prng := ()
    get_boundary_coefficient_prng := () }

/-- Concrete evaluator built from cAir. -/
def cEv : ConstraintEvaluator Int Int Nat Nat Unit Unit :=
  ConstraintEvaluator.new cOps cAir cCoin

/-- Concrete evaluator built from the boundary-free AIR. -/
def cEvNoBoundary : ConstraintEvaluator Int Int Nat Nat Unit Unit :=
  ConstraintEvaluator.new cOps cAirNoBoundary cCoin

/-- Concrete extended trace of length 4. -/
def cTrace : TraceTable Int :=
  { len := 4
    width := 1
    read_frame := fun i => { current := [(i : Int)], next := [(i : Int) + 1] } }

/-- Concrete trace with the wrong length (5 instead of the LDE size 4). -/
def cTraceBad : TraceTable Int :=
  { cTrace with len := 5 }

/-- Concrete trace agreeing with cTrace on every current row but differing in
every next row. -/
def cTraceNext : TraceTable Int :=
  { len := 4
    width := 1
    read_frame := fun i =>
      { current := [(i : Int)], next := [(i : Int) + 100] } }

/-- Concrete domain: LDE size 4, constraint-evaluation size 2. -/
def cDomain : StarkDomain Int :=
  { lde_domain_size := 4
    ce_domain_size := 2
    ce_step_to_lde_info := fun s => (2 * s, (s : Int) + 3) }

/-- Concrete release configuration (no verification, no concurrency). -/
def cCfgRelease : EvalConfig :=
  { debug_assertions := false, concurrent_feature := false, num_workers := 1 }

/-- Concrete verification-mode configuration (sequential). -/
def cCfgDebug : EvalConfig :=
  { debug_assertions := true, concurrent_feature := false, num_workers := 1 }

/-- Concrete configuration with the concurrent feature enabled. -/
def cCfgConc : EvalConfig :=
  { debug_assertions := false, concurrent_feature := true, num_workers := 3 }

/-- Concrete degree oracle agreeing with the expected degrees of cAir. -/
def cOracleGood : List (List Int) → List Nat := fun _ => [3]

/-- Concrete degree oracle reporting a wrong observed degree. -/
def cOracleBad : List (List Int) → List Nat := fun _ => [999]

/-- The cached boundary loop computes, for each group in order, its value at
the per-group recomputed power, filling exactly the first min(groups, slots)
slots and leaving later slots untouched. -/
theorem boundary_loop_eq {F E D M : Type} (ops : Ops F E D M) (state : List F)
    (x : F) (step : Nat) (gs : List (BoundaryConstraintGroup F E))
    (slots : List E) (da : Nat) (xp : E)
    (hxp : xp = ops.efrom (ops.fexp x da)) :
    boundary_loop ops state x step da xp gs slots =
      (gs.map (fun g =>
          g.evaluate state step x
            (ops.efrom (ops.fexp x g.degree_adjustment)))).take slots.length
        ++ slots.drop gs.length := by
  induction gs generalizing slots da xp with
  | nil => simp [boundary_loop]
  | cons g gs ih =>
    cases slots with
    | nil => simp [boundary_loop]
    | cons s rs =>
      simp only [boundary_loop]
      by_cases h : g.degree_adjustment = da
      · rw [if_pos h, ih rs da xp hxp]
        subst h
        simp [hxp, List.take_succ_cons, List.drop_succ_cons]
      · rw [if_neg h, ih rs g.degree_adjustment _ rfl]
        simp [List.take_succ_cons, List.drop_succ_cons]

/-- The uncached baseline loop computes the same list. -/
theorem boundary_loop_no_cache_eq {F E D M : Type} (ops : Ops F E D M)
    (state : List F) (x : F) (step : Nat)
    (gs : List (BoundaryConstraintGroup F E)) (slots : List E) :
    boundary_loop_no_cache ops state x step gs slots =
      (gs.map (fun g =>
          g.evaluate state step x
            (ops.efrom (ops.fexp x g.degree_adjustment)))).take slots.length
        ++ slots.drop gs.length := by
  induction gs generalizing slots with
  | nil => simp [boundary_loop_no_cache]
  | cons g gs ih =>
    cases slots with
    | nil => simp [boundary_loop_no_cache]
    | cons s rs =>
      simp only [boundary_loop_no_cache]
      rw [ih rs]
      simp [List.take_succ_cons, List.drop_succ_cons]

/-- The raw transition-evaluation buffer of a step has one slot per
transition constraint. -/
theorem t_evals_at_length {F E D M TP BP : Type} (ops : Ops F E D M)
    (ev : ConstraintEvaluator F E D M TP BP) (trace : TraceTable F)
    (domain : StarkDomain F) (step : Nat) :
    (t_evals_at ops ev trace domain step).length =
      ev.air.num_transition_constraints := by
  simp [t_evals_at, ev.air.evaluate_transition_len]

/-- The written row keeps the evaluations-buffer shape: its tail has one slot
per column after the first, and the slots beyond the boundary groups hold the
initial zeros. -/
theorem row_at_invariant {F E D M TP BP : Type} (ops : Ops F E D M)
    (ev : ConstraintEvaluator F E D M TP BP) (trace : TraceTable F)
    (domain : StarkDomain F) (C step : Nat) :
    ((row_at ops ev trace domain C step).drop 1).length = C - 1 ∧
      (row_at ops ev trace domain C step).drop
          (1 + ev.boundary_constraints.length) =
        List.replicate (C - 1 - ev.boundary_constraints.length) ops.ezero := by
  constructor
  · simp [row_at]
    omega
  · rw [row_at]
    rw [Nat.add_comm 1 ev.boundary_constraints.length]
    rw [List.drop_succ_cons]
    by_cases h : ev.boundary_constraints.length ≤ C - 1
    · have hlen :
          ((ev.boundary_constraints.map
              (fun g =>
                g.evaluate
                  (trace.read_frame (domain.ce_step_to_lde_info step).1).current
                  step (domain.ce_step_to_lde_info step).2
                  (ops.efrom
                    (ops.fexp (domain.ce_step_to_lde_info step).2
                      g.degree_adjustment)))).take (C - 1)).length =
            ev.boundary_constraints.length := by
        simp
        omega
      rw [← hlen, List.drop_left]
    · have h0 : C - 1 - ev.boundary_constraints.length = 0 := by omega
      rw [h0]
      simp only [List.replicate_zero, List.append_nil]
      apply List.drop_eq_nil_of_le
      simp

/-- An eval_step on an evaluator without boundary groups panics. -/
theorem eval_step_none {F E D M TP BP : Type} (ops : Ops F E D M)
    (ev : ConstraintEvaluator F E D M TP BP) (trace : TraceTable F)
    (domain : StarkDomain F) (record_debug : Bool)
    (st : List E × List F × ConstraintEvaluationTable F E D) (step : Nat)
    (hG : ev.boundary_constraints = []) :
    eval_step ops ev trace domain record_debug st step = none := by
  simp [eval_step, evaluate_boundary_constraints, hG]

/-- An eval_step whose buffers satisfy the shape invariant writes exactly the
specified row and raw evaluations, independently of the buffer contents. -/
theorem eval_step_some {F E D M TP BP : Type} (ops : Ops F E D M)
    (ev : ConstraintEvaluator F E D M TP BP) (trace : TraceTable F)
    (domain : StarkDomain F) (record_debug : Bool) (ebuf : List E)
    (tbuf : List F) (table : ConstraintEvaluationTable F E D) (step C : Nat)
    (hG : ev.boundary_constraints ≠ [])
    (hlen : (ebuf.drop 1).length = C - 1)
    (htail : ebuf.drop (1 + ev.boundary_constraints.length) =
      List.replicate (C - 1 - ev.boundary_constraints.length) ops.ezero)
    (htb : tbuf.length = ev.air.num_transition_constraints) :
    eval_step ops ev trace domain record_debug (ebuf, tbuf, table) step =
      some (row_at ops ev trace domain C step,
        t_evals_at ops ev trace domain step,
        upd_table ops ev trace domain record_debug C table step) := by
  obtain ⟨g, gs, hgs⟩ := List.exists_cons_of_ne_nil hG
  have hzero : tbuf.map (fun _ => ops.fzero) =
      List.replicate ev.air.num_transition_constraints ops.fzero := by
    rw [List.map_const', htb]
  have htr : evaluate_transition_constraints ops ev
      (trace.read_frame (domain.ce_step_to_lde_info step).1)
      (domain.ce_step_to_lde_info step).2 step tbuf =
      (merged_transition_at ops ev trace domain step,
        t_evals_at ops ev trace domain step) := by
    simp only [evaluate_transition_constraints, hzero]
    rw [merged_transition_at, t_evals_at]
  have hbd : evaluate_boundary_constraints ops ev.boundary_constraints
      (trace.read_frame (domain.ce_step_to_lde_info step).1).current
      (domain.ce_step_to_lde_info step).2 step (ebuf.drop 1) =
      some ((ev.boundary_constraints.map
          (fun gg =>
            gg.evaluate
              (trace.read_frame (domain.ce_step_to_lde_info step).1).current
              step (domain.ce_step_to_lde_info step).2
              (ops.efrom
                (ops.fexp (domain.ce_step_to_lde_info step).2
                  gg.degree_adjustment)))).take (C - 1) ++
        List.replicate (C - 1 - ev.boundary_constraints.length) ops.ezero) := by
    rw [hgs]
    simp only [evaluate_boundary_constraints]
    rw [boundary_loop_eq ops
      (trace.read_frame (domain.ce_step_to_lde_info step).1).current
      (domain.ce_step_to_lde_info step).2 step (g :: gs) (ebuf.drop 1)
      g.degree_adjustment _ rfl]
    rw [← hgs, hlen, List.drop_drop, htail]
  simp only [eval_step, htr, hbd]
  rfl

/-- Processing a nonempty step list panics when there are no boundary
groups. -/
theorem process_steps_none {F E D M TP BP : Type} (ops : Ops F E D M)
    (ev : ConstraintEvaluator F E D M TP BP) (trace : TraceTable F)
    (domain : StarkDomain F) (record_debug : Bool)
    (hG : ev.boundary_constraints = []) (steps : List Nat)
    (st : List E × List F × ConstraintEvaluationTable F E D)
    (hs : steps ≠ []) :
    process_steps ops ev trace domain record_debug steps st = none := by
  cases steps with
  | nil => exact absurd rfl hs
  | cons s rest =>
    simp [process_steps,
      eval_step_none ops ev trace domain record_debug st s hG]

/-- Processing a step list from buffers satisfying the shape invariant
performs exactly the per-step table updates, in order. -/
theorem process_steps_some {F E D M TP BP : Type} (ops : Ops F E D M)
    (ev : ConstraintEvaluator F E D M TP BP) (trace : TraceTable F)
    (domain : StarkDomain F) (record_debug : Bool) (C : Nat)
    (hG : ev.boundary_constraints ≠ []) :
    ∀ (steps : List Nat) (ebuf : List E) (tbuf : List F)
      (table : ConstraintEvaluationTable F E D),
      (ebuf.drop 1).length = C - 1 →
      ebuf.drop (1 + ev.boundary_constraints.length) =
        List.replicate (C - 1 - ev.boundary_constraints.length) ops.ezero →
      tbuf.length = ev.air.num_transition_constraints →
      ∃ e2 t2,
        process_steps ops ev trace domain record_debug steps
            (ebuf, tbuf, table) =
          some (e2, t2,
            steps.foldl (upd_table ops ev trace domain record_debug C)
              table) := by
  intro steps
  induction steps with
  | nil =>
    intro ebuf tbuf table _ _ _
    exact ⟨ebuf, tbuf, by simp [process_steps]⟩
  | cons s rest ih =>
    intro ebuf tbuf table h1 h2 h3
    have hstep := eval_step_some ops ev trace domain record_debug ebuf tbuf
      table s C hG h1 h2 h3
    obtain ⟨e2, t2, hrest⟩ := ih (row_at ops ev trace domain C s)
      (t_evals_at ops ev trace domain s)
      (upd_table ops ev trace domain record_debug C table s)
      (row_at_invariant ops ev trace domain C s).1
      (row_at_invariant ops ev trace domain C s).2
      (t_evals_at_length ops ev trace domain s)
    refine ⟨e2, t2, ?_⟩
    simp only [process_steps, hstep, hrest, List.foldl_cons]

/-- The sequential fill of an evaluator with at least one boundary group
succeeds and performs exactly the per-step table updates for every step
0 <= step < num_rows, in increasing order. -/
theorem evaluate_sequential_some {F E D M TP BP : Type} (ops : Ops F E D M)
    (ev : ConstraintEvaluator F E D M TP BP) (record_debug : Bool)
    (trace : TraceTable F) (domain : StarkDomain F)
    (table : ConstraintEvaluationTable F E D)
    (hG : ev.boundary_constraints ≠ []) :
    evaluate_sequential ops ev record_debug trace domain table =
      some ((List.range table.num_rows).foldl
        (upd_table ops ev trace domain record_debug table.num_columns)
        table) := by
  obtain ⟨e2, t2, h⟩ := process_steps_some ops ev trace domain record_debug
    table.num_columns hG (List.range table.num_rows)
    (List.replicate table.num_columns ops.ezero)
    (List.replicate ev.air.num_transition_constraints ops.fzero) table
    (by simp)
    (by
      rw [List.drop_replicate]
      congr 1
      omega)
    (by simp)
  simp [evaluate_sequential, h]

/-- The sequential fill of an evaluator without boundary groups panics as
soon as there is at least one step. -/
theorem evaluate_sequential_none {F E D M TP BP : Type} (ops : Ops F E D M)
    (ev : ConstraintEvaluator F E D M TP BP) (record_debug : Bool)
    (trace : TraceTable F) (domain : StarkDomain F)
    (table : ConstraintEvaluationTable F E D)
    (hG : ev.boundary_constraints = []) (hn : table.num_rows ≠ 0) :
    evaluate_sequential ops ev record_debug trace domain table = none := by
  have hne : List.range table.num_rows ≠ [] := by
    simp [List.range_eq_nil]
    omega
  simp [evaluate_sequential,
    process_steps_none ops ev trace domain record_debug hG _ _ hne]

/-- The sequential fill of a rowless table returns it unchanged. -/
theorem evaluate_sequential_zero {F E D M TP BP : Type} (ops : Ops F E D M)
    (ev : ConstraintEvaluator F E D M TP BP) (record_debug : Bool)
    (trace : TraceTable F) (domain : StarkDomain F)
    (table : ConstraintEvaluationTable F E D) (hn : table.num_rows = 0) :
    evaluate_sequential ops ev record_debug trace domain table =
      some table := by
  simp [evaluate_sequential, hn, process_steps]

/-- Fragment sizes never exceed the remaining row count. -/
theorem frag_size_le (n f : Nat) : (n + f) / (f + 1) ≤ n := by
  have h2 : n ≤ n * (f + 1) := Nat.le_mul_of_pos_right n (by omega)
  have h3 : (f + n * (f + 1)) / (f + 1) = f / (f + 1) + n :=
    Nat.add_mul_div_right f n (by omega)
  have h4 : f / (f + 1) = 0 := Nat.div_eq_of_lt (by omega)
  have h5 : n + f ≤ f + n * (f + 1) := by omega
  have h6 : (n + f) / (f + 1) ≤ (f + n * (f + 1)) / (f + 1) :=
    Nat.div_le_div_right h5
  omega

/-- A fragment of a nonempty remaining range is nonempty. -/
theorem frag_size_pos (n f : Nat) (hn : n ≠ 0) : 1 ≤ (n + f) / (f + 1) := by
  rw [Nat.one_le_div_iff (Nat.succ_pos f)]
  omega

/-- The fragment split produces exactly the requested number of fragments. -/
theorem fragment_steps_length (f : Nat) :
    ∀ off n, (fragment_steps off n f).length = f := by
  induction f with
  | zero => intro off n; rfl
  | succ f ih => intro off n; simp [fragment_steps, ih]

/-- Splitting zero rows yields only empty fragments. -/
theorem fragment_steps_zero (f : Nat) :
    ∀ off, fragment_steps off 0 f = List.replicate f [] := by
  induction f with
  | zero => intro off; rfl
  | succ f ih =>
    intro off
    have h0 : f / (f + 1) = 0 := Nat.div_eq_of_lt (Nat.lt_succ_self f)
    simp [fragment_steps, h0, ih, List.replicate_succ]

/-- Fragment completeness: for any nonzero fragment count the fragments'
global steps, concatenated in order, are exactly the steps of the covered
range - disjoint contiguous ranges with no overlap and no gap. -/
theorem fragment_steps_join (f : Nat) (hf : f ≠ 0) :
    ∀ off n,
      (fragment_steps off n f).flatten = (List.range n).map (· + off) := by
  induction f with
  | zero => exact absurd rfl hf
  | succ f ih =>
    intro off n
    by_cases hf0 : f = 0
    · subst hf0
      simp [fragment_steps]
    · simp only [fragment_steps, List.flatten_cons]
      rw [ih hf0 (off + (n + f) / (f + 1)) (n - (n + f) / (f + 1))]
      have hsz : (n + f) / (f + 1) ≤ n := frag_size_le n f
      conv_rhs =>
        rw [show n = (n + f) / (f + 1) + (n - (n + f) / (f + 1)) from by omega]
      rw [List.range_add, List.map_append, List.map_map]
      congr 1
      apply List.map_congr_left
      intro a _
      simp [Function.comp]
      omega

/-- A panicked accumulator propagates through the fragment fold. -/
theorem foldl_process_fragment_none {F E D M TP BP : Type} (ops : Ops F E D M)
    (ev : ConstraintEvaluator F E D M TP BP) (trace : TraceTable F)
    (domain : StarkDomain F) (C : Nat) (chunks : List (List Nat)) :
    chunks.foldl (process_fragment ops ev trace domain C) none = none := by
  induction chunks with
  | nil => rfl
  | cons c cs ih =>
    rw [List.foldl_cons]
    exact ih

/-- Empty fragments leave the table unchanged. -/
theorem foldl_process_fragment_nil_chunks {F E D M TP BP : Type}
    (ops : Ops F E D M) (ev : ConstraintEvaluator F E D M TP BP)
    (trace : TraceTable F) (domain : StarkDomain F) (C : Nat) :
    ∀ (k : Nat) (t : ConstraintEvaluationTable F E D),
      (List.replicate k ([] : List Nat)).foldl
        (process_fragment ops ev trace domain C) (some t) = some t := by
  intro k
  induction k with
  | zero => intro t; rfl
  | succ k ih =>
    intro t
    rw [List.replicate_succ, List.foldl_cons]
    exact ih t

/-- Folding the fragment tasks over disjoint fragments performs exactly the
per-step updates of the concatenation of their step lists. -/
theorem foldl_process_fragment_some {F E D M TP BP : Type}
    (ops : Ops F E D M) (ev : ConstraintEvaluator F E D M TP BP)
    (trace : TraceTable F) (domain : StarkDomain F) (C : Nat)
    (hG : ev.boundary_constraints ≠ []) :
    ∀ (chunks : List (List Nat)) (t : ConstraintEvaluationTable F E D),
      chunks.foldl (process_fragment ops ev trace domain C) (some t) =
        some ((chunks.flatten).foldl (upd_table ops ev trace domain false C)
          t) := by
  intro chunks
  induction chunks with
  | nil => intro t; simp
  | cons c cs ih =>
    intro t
    obtain ⟨e2, t2, hc⟩ := process_steps_some ops ev trace domain false C hG
      c (List.replicate C ops.ezero)
      (List.replicate ev.air.num_transition_constraints ops.fzero) t
      (by simp)
      (by
        rw [List.drop_replicate]
        congr 1
        omega)
      (by simp)
    rw [List.foldl_cons]
    have hfrag : process_fragment ops ev trace domain C (some t) c =
        some (c.foldl (upd_table ops ev trace domain false C) t) := by
      simp [process_fragment, hc]
    rw [hfrag, ih, List.flatten_cons, List.foldl_append]

/-- Every next_power_of_two value is a power of two. -/
theorem next_power_of_two_pow (n : Nat) :
    ∃ k, next_power_of_two n = 2 ^ k := by
  induction n using Nat.strong_induction_on with
  | _ n ih =>
    unfold next_power_of_two
    split
    · exact ⟨0, rfl⟩
    · next h =>
      obtain ⟨k, hk⟩ := ih ((n + 1) / 2) (by omega)
      exact ⟨k + 1, by rw [hk]; ring⟩

/-- next_power_of_two is positive. -/
theorem next_power_of_two_pos (n : Nat) : 0 < next_power_of_two n := by
  obtain ⟨k, hk⟩ := next_power_of_two_pow n
  rw [hk]
  exact Nat.pow_pos (by omega)

/-- next_power_of_two is at least its argument. -/
theorem next_power_of_two_ge (n : Nat) : n ≤ next_power_of_two n := by
  induction n using Nat.strong_induction_on with
  | _ n ih =>
    unfold next_power_of_two
    split
    · next h => omega
    · next h =>
      have hih := ih ((n + 1) / 2) (by omega)
      omega

/-- The parallel path computes exactly the sequential path's table, for every
worker count: the fragments partition the rows, each row is written once by
the fragment owning it, and fragment-local buffers carry no information into
the written rows. -/
theorem evaluate_concurrent_eq_sequential {F E D M TP BP : Type}
    (ops : Ops F E D M) (ev : ConstraintEvaluator F E D M TP BP)
    (num_workers : Nat) (trace : TraceTable F) (domain : StarkDomain F)
    (table : ConstraintEvaluationTable F E D) :
    evaluate_concurrent ops ev num_workers trace domain table =
      evaluate_sequential ops ev false trace domain table := by
  by_cases hG : ev.boundary_constraints = []
  · by_cases hn : table.num_rows = 0
    · rw [evaluate_sequential_zero ops ev false trace domain table hn,
        evaluate_concurrent, hn, fragment_steps_zero,
        foldl_process_fragment_nil_chunks]
    · rw [evaluate_sequential_none ops ev false trace domain table hG hn,
        evaluate_concurrent]
      rcases hf : next_power_of_two num_workers with _ | f
      · exact absurd hf (by have := next_power_of_two_pos num_workers; omega)
      · simp only [fragment_steps]
        rw [List.foldl_cons]
        have hsz : 1 ≤ (table.num_rows + f) / (f + 1) :=
          frag_size_pos table.num_rows f hn
        have hchunk : process_fragment ops ev trace domain table.num_columns
            (some table)
            ((List.range ((table.num_rows + f) / (f + 1))).map (· + 0)) =
            none := by
          have hne : List.range ((table.num_rows + f) / (f + 1)) ≠ [] := by
            simp [List.range_eq_nil]
            omega
          have hnone := process_steps_none ops ev trace domain false hG
            (List.range ((table.num_rows + f) / (f + 1)))
            (List.replicate table.num_columns ops.ezero,
              List.replicate ev.air.num_transition_constraints ops.fzero,
              table) hne
          simp [process_fragment, hnone]
        rw [hchunk]
        exact foldl_process_fragment_none ops ev trace domain
          table.num_columns _
  · rw [evaluate_sequential_some ops ev false trace domain table hG,
      evaluate_concurrent,
      foldl_process_fragment_some ops ev trace domain table.num_columns hG,
      fragment_steps_join (next_power_of_two num_workers)
        (by have := next_power_of_two_pos num_workers; omega) 0
        table.num_rows]
    have hmap : (List.range table.num_rows).map (· + 0) =
        List.range table.num_rows := by simp
    rw [hmap]

/-- Setting an element past a prefix sets it in the suffix. -/
theorem set_append_length_add {α : Type} (a b : List α) (v : α) (k : Nat) :
    (a ++ b).set (a.length + k) v = a ++ b.set k v := by
  induction a with
  | nil => simp
  | cons x xs ih =>
    have hidx : xs.length + 1 + k = (xs.length + k) + 1 := by omega
    simp only [List.cons_append, List.length_cons, hidx, List.set_cons_succ]
    rw [ih]

/-- Folding element writes with per-index values over an initial range turns a
sufficiently long list into the mapped range followed by its untouched
tail: each index is written exactly once. -/
theorem foldl_set_range {α : Type} (f : Nat → α) :
    ∀ (n : Nat) (l : List α), n ≤ l.length →
      (List.range n).foldl (fun acc s => acc.set s (f s)) l =
        (List.range n).map f ++ l.drop n := by
  intro n
  induction n with
  | zero => intro l _; simp
  | succ n ih =>
    intro l h
    rw [List.range_succ, List.foldl_append, List.map_append, ih l (by omega)]
    simp only [List.foldl_cons, List.foldl_nil, List.map_cons, List.map_nil]
    have hn : n < l.length := by omega
    have hlen : ((List.range n).map f).length = n := by simp
    have h1 : ((List.range n).map f ++ l.drop n).set n (f n) =
        (List.range n).map f ++ (l.drop n).set 0 (f n) := by
      have h2 := set_append_length_add ((List.range n).map f) (l.drop n)
        (f n) 0
      rw [hlen, Nat.add_zero] at h2
      exact h2
    rw [h1, List.drop_eq_getElem_cons hn, List.set_cons_zero]
    simp

/-- The fill fold acts field-wise: rows receive the per-step rows, the raw
evaluations (verification mode) the per-step raw evaluations, and the
divisors and expected degrees are untouched. -/
theorem foldl_upd_table {F E D M TP BP : Type} (ops : Ops F E D M)
    (ev : ConstraintEvaluator F E D M TP BP) (trace : TraceTable F)
    (domain : StarkDomain F) (record_debug : Bool) (C : Nat) :
    ∀ (steps : List Nat) (table : ConstraintEvaluationTable F E D),
      steps.foldl (upd_table ops ev trace domain record_debug C) table =
        { rows := steps.foldl
            (fun rs s => rs.set s (row_at ops ev trace domain C s))
            table.rows
          divisors := table.divisors
          t_evaluations :=
            if record_debug then
              steps.foldl
                (fun ts s => ts.set s (t_evals_at ops ev trace domain s))
                table.t_evaluations
            else table.t_evaluations
          expected_degrees := table.expected_degrees } := by
  intro steps
  induction steps with
  | nil => intro table; cases record_debug <;> simp
  | cons s rest ih =>
    intro table
    rw [List.foldl_cons, ih]
    simp only [List.foldl_cons]
    cases record_debug <;>
      simp [upd_table, ConstraintEvaluationTable.update_row,
        ConstraintEvaluationTable.update_transition_evaluations]

/-- Filling the freshly allocated table writes every row exactly once and
yields the completely filled table. -/
theorem filled_from_initial {F E D M TP BP : Type} (ops : Ops F E D M)
    (ev : ConstraintEvaluator F E D M TP BP) (cfg : EvalConfig)
    (trace : TraceTable F) (domain : StarkDomain F) :
    (List.range (initial_table ops ev cfg domain).num_rows).foldl
        (upd_table ops ev trace domain
          (cfg.debug_assertions && !cfg.concurrent_feature)
          (initial_table ops ev cfg domain).num_columns)
        (initial_table ops ev cfg domain) =
      filled_table ops ev cfg trace domain := by
  have hrows : (initial_table ops ev cfg domain).num_rows =
      domain.ce_domain_size := by
    simp [initial_table, ConstraintEvaluationTable.num_rows]
  have hcols : (initial_table ops ev cfg domain).num_columns =
      ev.divisors.length := by
    simp [initial_table, ConstraintEvaluationTable.num_columns]
  rw [hrows, hcols, foldl_upd_table]
  have hsetrows : (List.range domain.ce_domain_size).foldl
      (fun rs s =>
        rs.set s (row_at ops ev trace domain ev.divisors.length s))
      (initial_table ops ev cfg domain).rows =
      (List.range domain.ce_domain_size).map
        (row_at ops ev trace domain ev.divisors.length) := by
    rw [show (initial_table ops ev cfg domain).rows =
        List.replicate domain.ce_domain_size
          (List.replicate ev.divisors.length ops.ezero) from rfl]
    rw [foldl_set_range _ domain.ce_domain_size _ (by simp)]
    simp
  have hsettev : (List.range domain.ce_domain_size).foldl
      (fun ts s => ts.set s (t_evals_at ops ev trace domain s))
      (initial_table ops ev cfg domain).t_evaluations =
      (List.range domain.ce_domain_size).map
        (t_evals_at ops ev trace domain) := by
    rw [show (initial_table ops ev cfg domain).t_evaluations =
        List.replicate domain.ce_domain_size [] from rfl]
    rw [foldl_set_range _ domain.ce_domain_size _ (by simp)]
    simp
  rw [hsetrows, hsettev]
  simp only [filled_table, initial_table]

/-- The divisors pushed by the boundary build loop are the raw groups'
divisors, in order. -/
theorem build_boundary_divisors {F E D M : Type} (ctx : AirContext) :
    ∀ (raw : List (RawBoundaryGroup F E D M)) (m : M),
      (build_boundary ctx raw m).2.1 = raw.map RawBoundaryGroup.divisor := by
  intro raw
  induction raw with
  | nil => intro m; rfl
  | cons g gs ih => intro m; simp [build_boundary, ih]

/-- The boundary build loop converts each raw group, in order. -/
theorem build_boundary_length {F E D M : Type} (ctx : AirContext) :
    ∀ (raw : List (RawBoundaryGroup F E D M)) (m : M),
      (build_boundary ctx raw m).1.length = raw.length := by
  intro raw
  induction raw with
  | nil => intro m; rfl
  | cons g gs ih => intro m; simp [build_boundary, ih]

/-- Full characterization of ConstraintEvaluator.evaluate: the length assert
fires first and aborts without a table; with no boundary group and at least
one step the fill loop panics; otherwise the table is completely filled (by
either path - they agree) and, in verification mode, the degree cross-check
decides between ok and degree_mismatch on the completed table. -/
theorem evaluate_eq {F E D M TP BP : Type} (ops : Ops F E D M)
    (ev : ConstraintEvaluator F E D M TP BP) (cfg : EvalConfig)
    (observed_degrees : List (List F) → List Nat) (trace : TraceTable F)
    (domain : StarkDomain F) :
    ConstraintEvaluator.evaluate ops ev cfg observed_degrees trace domain =
      if trace.len ≠ domain.lde_domain_size then EvalOutcome.length_mismatch
      else if ev.boundary_constraints.isEmpty ∧ domain.ce_domain_size ≠ 0 then
        EvalOutcome.boundary_panic
      else if cfg.debug_assertions then
        if observed_degrees
            (filled_table ops ev cfg trace domain).t_evaluations =
            (filled_table ops ev cfg trace domain).expected_degrees then
          EvalOutcome.ok (filled_table ops ev cfg trace domain)
        else EvalOutcome.degree_mismatch (filled_table ops ev cfg trace domain)
      else EvalOutcome.ok (filled_table ops ev cfg trace domain) := by
  by_cases hl : trace.len = domain.lde_domain_size
  · have hfill :
        (if uses_concurrent_path cfg domain then
            evaluate_concurrent ops ev cfg.num_workers trace domain
              (initial_table ops ev cfg domain)
          else
            evaluate_sequential ops ev
              (cfg.debug_assertions && !cfg.concurrent_feature) trace domain
              (initial_table ops ev cfg domain)) =
        evaluate_sequential ops ev
          (cfg.debug_assertions && !cfg.concurrent_feature) trace domain
          (initial_table ops ev cfg domain) := by
      by_cases hc : uses_concurrent_path cfg domain = true
      · rw [if_pos hc, evaluate_concurrent_eq_sequential]
        have hcf : cfg.concurrent_feature = true := by
          simp only [uses_concurrent_path, Bool.and_eq_true] at hc
          exact hc.1
        rw [hcf]
        simp
      · rw [if_neg hc]
    simp only [ConstraintEvaluator.evaluate]
    rw [if_neg (by simp [hl]), hfill]
    conv_rhs => rw [if_neg (by simp [hl])]
    by_cases hGe : ev.boundary_constraints = []
    · by_cases hce : domain.ce_domain_size = 0
      · rw [evaluate_sequential_zero ops ev _ trace domain _
          (by simp [initial_table, ConstraintEvaluationTable.num_rows, hce])]
        have htab : initial_table ops ev cfg domain =
            filled_table ops ev cfg trace domain := by
          simp [initial_table, filled_table, hce]
        rw [htab, if_neg (by simp [hce])]
      · rw [evaluate_sequential_none ops ev _ trace domain _ hGe
          (by simp [initial_table, ConstraintEvaluationTable.num_rows, hce]),
          if_pos ⟨by simp [hGe], hce⟩]
    · rw [evaluate_sequential_some ops ev _ trace domain _ hGe,
        filled_from_initial, if_neg (by simp [hGe])]
  · simp [ConstraintEvaluator.evaluate, hl]

/-- Row s of the completely filled table is the specified per-step row. -/
theorem filled_table_row {F E D M TP BP : Type} (ops : Ops F E D M)
    (ev : ConstraintEvaluator F E D M TP BP) (cfg : EvalConfig)
    (trace : TraceTable F) (domain : StarkDomain F) (s : Nat)
    (hs : s < domain.ce_domain_size) :
    (filled_table ops ev cfg trace domain).rows.getD s [] =
      row_at ops ev trace domain ev.divisors.length s := by
  simp [filled_table, List.getD_eq_getElem?_getD, List.getElem?_map,
    List.getElem?_range, hs]

/-- A successful evaluate returns exactly the completely filled table. -/
theorem evaluate_ok_filled {F E D M TP BP : Type} (ops : Ops F E D M)
    (ev : ConstraintEvaluator F E D M TP BP) (cfg : EvalConfig)
    (observed_degrees : List (List F) → List Nat) (trace : TraceTable F)
    (domain : StarkDomain F) (t : ConstraintEvaluationTable F E D)
    (h : ConstraintEvaluator.evaluate ops ev cfg observed_degrees trace
        domain = EvalOutcome.ok t) :
    t = filled_table ops ev cfg trace domain := by
  rw [evaluate_eq] at h
  split_ifs at h <;> simp_all

/-- Boundary columns of a written row depend only on the current rows of the
frames, never on the next rows. -/
theorem row_at_drop_one {F E D M TP BP : Type} (ops : Ops F E D M)
    (ev : ConstraintEvaluator F E D M TP BP) (trace1 trace2 : TraceTable F)
    (domain : StarkDomain F) (C s : Nat)
    (hcur : ∀ i, (trace1.read_frame i).current =
      (trace2.read_frame i).current) :
    (row_at ops ev trace1 domain C s).drop 1 =
      (row_at ops ev trace2 domain C s).drop 1 := by
  simp only [row_at, List.drop_succ_cons, List.drop_zero]
  rw [hcur (domain.ce_step_to_lde_info s).1]

/-- C1: for every trace and domain, evaluate aborts immediately (fatally, with
no output table produced, hence before any row is written) exactly when the
trace's length differs from the domain's LDE-domain size; when the lengths are
equal, no such abort occurs. -/
theorem c1_trace_length_mismatch_aborts {F E D M TP BP : Type}
    (ops : Ops F E D M) (ev : ConstraintEvaluator F E D M TP BP)
    (cfg : EvalConfig) (observed_degrees : List (List F) → List Nat)
    (trace : TraceTable F) (domain : StarkDomain F) :
    (trace.len ≠ domain.lde_domain_size →
      ConstraintEvaluator.evaluate ops ev cfg observed_degrees trace domain =
        EvalOutcome.length_mismatch) ∧
    (trace.len = domain.lde_domain_size →
      ConstraintEvaluator.evaluate ops ev cfg observed_degrees trace domain ≠
        EvalOutcome.length_mismatch) := by
  constructor
  · intro h
    rw [evaluate_eq, if_pos h]
  · intro h
    rw [evaluate_eq, if_neg (by simp [h])]
    split_ifs <;> simp

/-- C1 witness: a length-5 trace over an LDE domain of size 4 aborts with the
length mismatch, and the matching length-4 trace does not. -/
theorem c1_witness :
    ConstraintEvaluator.evaluate cOps cEv cCfgRelease cOracleGood cTraceBad
        cDomain = EvalOutcome.length_mismatch ∧
    ConstraintEvaluator.evaluate cOps cEv cCfgRelease cOracleGood cTrace
        cDomain ≠ EvalOutcome.length_mismatch :=
  ⟨(c1_trace_length_mismatch_aborts cOps cEv cCfgRelease cOracleGood
      cTraceBad cDomain).1 (by decide),
    (c1_trace_length_mismatch_aborts cOps cEv cCfgRelease cOracleGood cTrace
      cDomain).2 (by decide)⟩

/-- C3: for a fixed evaluator (AIR plus coin transcript), trace and domain,
the table produced by the parallel path equals bit-for-bit the table produced
by the sequential path, for every worker-pool size; the fragment count is the
next power of two of the worker count, which is at least the worker count and
a power of two, and each fragment runs the per-step logic over its disjoint
contiguous row range at global step i + offset (the fragment_steps lists). -/
theorem c3_parallel_equals_sequential {F E D M TP BP : Type}
    (ops : Ops F E D M) (ev : ConstraintEvaluator F E D M TP BP)
    (num_workers : Nat) (trace : TraceTable F) (domain : StarkDomain F)
    (table : ConstraintEvaluationTable F E D) :
    evaluate_concurrent ops ev num_workers trace domain table =
      evaluate_sequential ops ev false trace domain table ∧
    (fragment_steps 0 table.num_rows (next_power_of_two num_workers)).length =
      next_power_of_two num_workers ∧
    num_workers ≤ next_power_of_two num_workers ∧
    (∃ k, next_power_of_two num_workers = 2 ^ k) ∧
    (fragment_steps 0 table.num_rows
        (next_power_of_two num_workers)).flatten =
      List.range table.num_rows :=
  ⟨evaluate_concurrent_eq_sequential ops ev num_workers trace domain table,
    fragment_steps_length _ 0 table.num_rows,
    next_power_of_two_ge num_workers,
    next_power_of_two_pow num_workers,
    by
      rw [fragment_steps_join (next_power_of_two num_workers)
        (by have := next_power_of_two_pos num_workers; omega) 0
        table.num_rows]
      simp⟩

/-- C5: evaluating the boundary groups with the degree-adjustment power cached
across consecutive groups sharing the same adjustment writes into every output
slot exactly the same merged value as recomputing the power independently for
every group. -/
theorem c5_degree_adjustment_caching {F E D M : Type} (ops : Ops F E D M)
    (groups : List (BoundaryConstraintGroup F E)) (state : List F) (x : F)
    (step : Nat) (result : List E) :
    evaluate_boundary_constraints ops groups state x step result =
      evaluate_boundary_constraints_no_cache ops groups state x step result := by
  cases groups with
  | nil => rfl
  | cons g gs =>
    simp only [evaluate_boundary_constraints,
      evaluate_boundary_constraints_no_cache]
    rw [boundary_loop_eq ops state x step (g :: gs) result g.degree_adjustment
      _ rfl, boundary_loop_no_cache_eq]

/-- C8: the sequential fill processes every step 0 <= step < num_rows in
increasing order and writes every row exactly once: the resulting rows are
exactly the per-step rows (translated LDE step and domain value from the
domain collaborator, frame read from the trace there, merged transition value
in column 0, boundary-group values in divisor order in columns 1..), in step
order, with the divisor list untouched. -/
theorem c8_sequential_fill {F E D M TP BP : Type} (ops : Ops F E D M)
    (ev : ConstraintEvaluator F E D M TP BP) (record_debug : Bool)
    (trace : TraceTable F) (domain : StarkDomain F)
    (table : ConstraintEvaluationTable F E D)
    (hG : ev.boundary_constraints ≠ []) :
    ∃ t, evaluate_sequential ops ev record_debug trace domain table =
        some t ∧
      t.rows = (List.range table.num_rows).map
        (row_at ops ev trace domain table.num_columns) ∧
      t.divisors = table.divisors ∧
      ∀ s, s < table.num_rows →
        t.rows.getD s [] =
          row_at ops ev trace domain table.num_columns s := by
  refine ⟨(List.range table.num_rows).foldl
      (upd_table ops ev trace domain record_debug table.num_columns) table,
    evaluate_sequential_some ops ev record_debug trace domain table hG,
    ?_, ?_, ?_⟩
  · rw [foldl_upd_table]
    rw [show table.num_rows = table.rows.length from rfl]
    rw [foldl_set_range _ table.rows.length table.rows (by omega)]
    simp
  · rw [foldl_upd_table]
  · intro s hs
    rw [foldl_upd_table]
    have hrows : ((List.range table.num_rows).foldl
        (fun rs st =>
          rs.set st (row_at ops ev trace domain table.num_columns st))
        table.rows) = (List.range table.num_rows).map
          (row_at ops ev trace domain table.num_columns) := by
      rw [show table.num_rows = table.rows.length from rfl]
      rw [foldl_set_range _ table.rows.length table.rows (by omega)]
      simp
    rw [hrows]
    simp [List.getD_eq_getElem?_getD, List.getElem?_map, List.getElem?_range,
      hs]

/-- C8 witness: the concrete evaluator fills the 2-step table as specified. -/
theorem c8_witness :
    ∃ t, evaluate_sequential cOps cEv false cTrace cDomain
        (initial_table cOps cEv cCfgRelease cDomain) = some t ∧
      t.rows = (List.range (initial_table cOps cEv cCfgRelease
          cDomain).num_rows).map
        (row_at cOps cEv cTrace cDomain
          (initial_table cOps cEv cCfgRelease cDomain).num_columns) ∧
      t.divisors = (initial_table cOps cEv cCfgRelease cDomain).divisors ∧
      ∀ s, s < (initial_table cOps cEv cCfgRelease cDomain).num_rows →
        t.rows.getD s [] = row_at cOps cEv cTrace cDomain
          (initial_table cOps cEv cCfgRelease cDomain).num_columns s :=
  c8_sequential_fill cOps cEv false cTrace cDomain
    (initial_table cOps cEv cCfgRelease cDomain)
    (by
      intro h
      exact absurd (congrArg List.length h) (by decide))

/-- C10: an evaluator built from an AIR returning zero boundary groups cannot
evaluate: the boundary routine reads the degree adjustment of group 0 before
iterating and panics on every call regardless of the (empty) output slice, so
evaluate panics whenever at least one step must be processed. -/
theorem c10_empty_boundary_groups_panic {F E D M TP BP : Type}
    (ops : Ops F E D M) (air : Air F E D M TP BP) (coin : PublicCoin TP BP)
    (cfg : EvalConfig) (observed_degrees : List (List F) → List Nat)
    (trace : TraceTable F) (domain : StarkDomain F)
    (hraw : air.get_boundary_constraints coin.get_boundary_coefficient_prng =
      [])
    (hlen : trace.len = domain.lde_domain_size)
    (hce : domain.ce_domain_size ≠ 0) :
    (∀ (state : List F) (x : F) (step : Nat) (result : List E),
      evaluate_boundary_constraints ops
        (ConstraintEvaluator.new ops air coin).boundary_constraints state x
        step result = none) ∧
    ConstraintEvaluator.evaluate ops (ConstraintEvaluator.new ops air coin)
        cfg observed_degrees trace domain = EvalOutcome.boundary_panic := by
  have hbc : (ConstraintEvaluator.new ops air coin).boundary_constraints =
      [] := by
    simp [ConstraintEvaluator.new, hraw, build_boundary]
  constructor
  · intro state x step result
    rw [hbc]
    rfl
  · rw [evaluate_eq, if_neg (by simp [hlen]),
      if_pos ⟨by simp [hbc], hce⟩]

/-- C10 witness: the concrete boundary-free AIR panics on the 2-step
domain. -/
theorem c10_witness :
    evaluate_boundary_constraints cOps cEvNoBoundary.boundary_constraints
        [(0 : Int)] 1 0 [] = none ∧
    ConstraintEvaluator.evaluate cOps cEvNoBoundary cCfgRelease cOracleGood
        cTrace cDomain = EvalOutcome.boundary_panic :=
  ⟨(c10_empty_boundary_groups_panic cOps cAirNoBoundary cCoin cCfgRelease
      cOracleGood cTrace cDomain rfl rfl (by decide)).1 [(0 : Int)] 1 0 [],
    (c10_empty_boundary_groups_panic cOps cAirNoBoundary cCoin cCfgRelease
      cOracleGood cTrace cDomain rfl rfl (by decide)).2⟩

/-- C4: in every table evaluate returns, the value in column 0 at every step
is the sum, over all transition-constraint groups, of the group's merge of the
raw per-constraint AIR evaluations (computed into a buffer zeroed at the start
of the step, with the periodic-value row of the step) with the domain value x;
no divisor division appears in this value (merged_transition_at contains
none). -/
theorem c4_transition_column_merge {F E D M TP BP : Type} (ops : Ops F E D M)
    (ev : ConstraintEvaluator F E D M TP BP) (cfg : EvalConfig)
    (observed_degrees : List (List F) → List Nat) (trace : TraceTable F)
    (domain : StarkDomain F) (t : ConstraintEvaluationTable F E D)
    (hok : ConstraintEvaluator.evaluate ops ev cfg observed_degrees trace
      domain = EvalOutcome.ok t) :
    ∀ s, s < domain.ce_domain_size →
      (t.rows.getD s []).getD 0 ops.ezero =
        merged_transition_at ops ev trace domain s := by
  intro s hs
  rw [evaluate_ok_filled ops ev cfg observed_degrees trace domain t hok,
    filled_table_row ops ev cfg trace domain s hs]
  rfl

/-- C4 witness: column 0 of row 0 of the concrete run is the merged
transition value. -/
theorem c4_witness :
    ((filled_table cOps cEv cCfgRelease cTrace cDomain).rows.getD 0
        []).getD 0 cOps.ezero =
      merged_transition_at cOps cEv cTrace cDomain 0 :=
  c4_transition_column_merge cOps cEv cCfgRelease cOracleGood cTrace cDomain
    (filled_table cOps cEv cCfgRelease cTrace cDomain) (by decide) 0
    (by decide)

/-- C6: the parallel path is taken if and only if the concurrent feature is
configured and the constraint-evaluation-domain size is at least the 8192-step
threshold; below the threshold evaluate follows the forced-sequential entry
point even when concurrency is configured, and (outside verification mode,
whose recording is compiled out by the concurrent feature) its output is
identical to the output with concurrency not configured. -/
theorem c6_concurrency_threshold {F E D M TP BP : Type} (ops : Ops F E D M)
    (ev : ConstraintEvaluator F E D M TP BP) (cfg : EvalConfig)
    (observed_degrees : List (List F) → List Nat) (trace : TraceTable F)
    (domain : StarkDomain F) :
    (uses_concurrent_path cfg domain = true ↔
      cfg.concurrent_feature = true ∧
        MIN_CONCURRENT_DOMAIN_SIZE ≤ domain.ce_domain_size) ∧
    (domain.ce_domain_size < MIN_CONCURRENT_DOMAIN_SIZE →
      ConstraintEvaluator.evaluate ops ev cfg observed_degrees trace domain =
        evaluate_forced_sequential ops ev cfg observed_degrees trace
          domain) ∧
    (domain.ce_domain_size < MIN_CONCURRENT_DOMAIN_SIZE →
      cfg.debug_assertions = false →
      ConstraintEvaluator.evaluate ops ev
          { cfg with concurrent_feature := true } observed_degrees trace
          domain =
        ConstraintEvaluator.evaluate ops ev
          { cfg with concurrent_feature := false } observed_degrees trace
          domain) := by
  refine ⟨?_, ?_, ?_⟩
  · simp [uses_concurrent_path]
  · intro hlt
    have hc : uses_concurrent_path cfg domain = false := by
      simp [uses_concurrent_path]
      intro _
      omega
    simp only [ConstraintEvaluator.evaluate, evaluate_forced_sequential, hc,
      Bool.false_eq_true, if_false]
  · intro hlt hdbg
    rw [evaluate_eq, evaluate_eq]
    have hfill : filled_table ops ev { cfg with concurrent_feature := true }
        trace domain =
        filled_table ops ev { cfg with concurrent_feature := false } trace
          domain := by
      simp [filled_table, hdbg]
    simp only [hdbg] at hfill
    simp [hdbg, hfill]

/-- C6 witness: on the 2-step domain (below threshold), the
concurrency-configured run equals the forced-sequential entry point and the
concurrency-free run. -/
theorem c6_witness :
    ConstraintEvaluator.evaluate cOps cEv cCfgConc cOracleGood cTrace
        cDomain =
      evaluate_forced_sequential cOps cEv cCfgConc cOracleGood cTrace
        cDomain ∧
    ConstraintEvaluator.evaluate cOps cEv
        { cCfgRelease with concurrent_feature := true } cOracleGood cTrace
        cDomain =
      ConstraintEvaluator.evaluate cOps cEv
        { cCfgRelease with concurrent_feature := false } cOracleGood cTrace
        cDomain :=
  ⟨(c6_concurrency_threshold cOps cEv cCfgConc cOracleGood cTrace
      cDomain).2.1 (by decide),
    (c6_concurrency_threshold cOps cEv cCfgRelease cOracleGood cTrace
      cDomain).2.2 (by decide) rfl⟩

/-- C7: in verification mode (sequential build), whenever the observed
degrees of the recorded evaluations differ from the expected degrees recorded
at construction (the declared degrees applied to the trace length), evaluate
first fills the table completely and only then fails with a degree mismatch
carrying the completed table; when the observed degrees match the expected
ones, evaluate returns the same completed table without failure. -/
theorem c7_degree_check {F E D M TP BP : Type} (ops : Ops F E D M)
    (air : Air F E D M TP BP) (coin : PublicCoin TP BP) (cfg : EvalConfig)
    (observed_degrees : List (List F) → List Nat) (trace : TraceTable F)
    (domain : StarkDomain F) (hdbg : cfg.debug_assertions = true)
    (_hconc : cfg.concurrent_feature = false)
    (hlen : trace.len = domain.lde_domain_size)
    (hG : (ConstraintEvaluator.new ops air coin).boundary_constraints ≠ []) :
    (ConstraintEvaluator.new ops air coin).transition_constraint_degrees =
      air.context.transition_constraint_degrees.map
        (fun d => d air.context.trace_length) ∧
    (filled_table ops (ConstraintEvaluator.new ops air coin) cfg trace
        domain).rows.length = domain.ce_domain_size ∧
    (observed_degrees (filled_table ops (ConstraintEvaluator.new ops air coin)
          cfg trace domain).t_evaluations ≠
        (filled_table ops (ConstraintEvaluator.new ops air coin) cfg trace
          domain).expected_degrees →
      ConstraintEvaluator.evaluate ops (ConstraintEvaluator.new ops air coin)
          cfg observed_degrees trace domain =
        EvalOutcome.degree_mismatch
          (filled_table ops (ConstraintEvaluator.new ops air coin) cfg trace
            domain)) ∧
    (observed_degrees (filled_table ops (ConstraintEvaluator.new ops air coin)
          cfg trace domain).t_evaluations =
        (filled_table ops (ConstraintEvaluator.new ops air coin) cfg trace
          domain).expected_degrees →
      ConstraintEvaluator.evaluate ops (ConstraintEvaluator.new ops air coin)
          cfg observed_degrees trace domain =
        EvalOutcome.ok
          (filled_table ops (ConstraintEvaluator.new ops air coin) cfg trace
            domain)) := by
  refine ⟨rfl, by simp [filled_table], ?_, ?_⟩
  · intro hne
    rw [evaluate_eq, if_neg (by simp [hlen]), if_neg (by simp [hG]),
      if_pos hdbg, if_neg hne]
  · intro heq
    rw [evaluate_eq, if_neg (by simp [hlen]), if_neg (by simp [hG]),
      if_pos hdbg, if_pos heq]

/-- C7 witness: with a wrong observed degree the concrete verification-mode
run fails with a degree mismatch carrying the completed table; with the
matching observed degree it returns the same table. -/
theorem c7_witness :
    ConstraintEvaluator.evaluate cOps cEv cCfgDebug cOracleBad cTrace
        cDomain =
      EvalOutcome.degree_mismatch
        (filled_table cOps cEv cCfgDebug cTrace cDomain) ∧
    ConstraintEvaluator.evaluate cOps cEv cCfgDebug cOracleGood cTrace
        cDomain =
      EvalOutcome.ok (filled_table cOps cEv cCfgDebug cTrace cDomain) :=
  ⟨(c7_degree_check cOps cAir cCoin cCfgDebug cOracleBad cTrace cDomain rfl
      rfl rfl
      (by
        intro h
        exact absurd (congrArg List.length h) (by decide))).2.2.1
      (by decide),
    (c7_degree_check cOps cAir cCoin cCfgDebug cOracleGood cTrace cDomain rfl
      rfl rfl
      (by
        intro h
        exact absurd (congrArg List.length h) (by decide))).2.2.2
      (by decide)⟩

/-- C9: the boundary-group columns (columns 1 onward) written at every step
depend only on the frame's current row, the domain value x and the step: two
sequential evaluations over traces agreeing on every current row but differing
arbitrarily in next rows produce identical values in every boundary-group
column of every row. -/
theorem c9_boundary_independent_of_next_row {F E D M TP BP : Type}
    (ops : Ops F E D M) (ev : ConstraintEvaluator F E D M TP BP)
    (record_debug : Bool) (trace1 trace2 : TraceTable F)
    (domain : StarkDomain F) (table : ConstraintEvaluationTable F E D)
    (t1 t2 : ConstraintEvaluationTable F E D)
    (hcur : ∀ i, (trace1.read_frame i).current =
      (trace2.read_frame i).current)
    (h1 : evaluate_sequential ops ev record_debug trace1 domain table =
      some t1)
    (h2 : evaluate_sequential ops ev record_debug trace2 domain table =
      some t2) :
    t1.rows.map (fun r => r.drop 1) = t2.rows.map (fun r => r.drop 1) := by
  by_cases hG : ev.boundary_constraints = []
  · by_cases hn : table.num_rows = 0
    · rw [evaluate_sequential_zero ops ev record_debug trace1 domain table hn]
        at h1
      rw [evaluate_sequential_zero ops ev record_debug trace2 domain table hn]
        at h2
      simp only [Option.some.injEq] at h1 h2
      rw [← h1, ← h2]
    · rw [evaluate_sequential_none ops ev record_debug trace1 domain table hG
        hn] at h1
      exact absurd h1 (by simp)
  · rw [evaluate_sequential_some ops ev record_debug trace1 domain table hG]
      at h1
    rw [evaluate_sequential_some ops ev record_debug trace2 domain table hG]
      at h2
    simp only [Option.some.injEq] at h1 h2
    have hr1 : t1.rows = (List.range table.num_rows).map
        (row_at ops ev trace1 domain table.num_columns) := by
      rw [← h1, foldl_upd_table,
        show table.num_rows = table.rows.length from rfl,
        foldl_set_range _ table.rows.length table.rows (by omega)]
      simp
    have hr2 : t2.rows = (List.range table.num_rows).map
        (row_at ops ev trace2 domain table.num_columns) := by
      rw [← h2, foldl_upd_table,
        show table.num_rows = table.rows.length from rfl,
        foldl_set_range _ table.rows.length table.rows (by omega)]
      simp
    rw [hr1, hr2, List.map_map, List.map_map]
    apply List.map_congr_left
    intro s _
    exact row_at_drop_one ops ev trace1 trace2 domain table.num_columns s
      hcur

/-- C9 witness: two concrete traces sharing current rows but with different
next rows yield identical boundary columns. -/
theorem c9_witness :
    (filled_table cOps cEv cCfgRelease cTrace cDomain).rows.map
        (fun r => r.drop 1) =
      (filled_table cOps cEv cCfgRelease cTraceNext cDomain).rows.map
        (fun r => r.drop 1) :=
  c9_boundary_independent_of_next_row cOps cEv false cTrace cTraceNext
    cDomain (initial_table cOps cEv cCfgRelease cDomain)
    (filled_table cOps cEv cCfgRelease cTrace cDomain)
    (filled_table cOps cEv cCfgRelease cTraceNext cDomain)
    (fun _ => rfl) (by decide) (by decide)

/-- C2: the divisor list built at construction has the shared transition
divisor (built by from_transition) at index 0 and, at index k+1, the divisor
of the k-th boundary group in the exact order the AIR returns boundary groups;
every returned table carries this divisor list unchanged, and its column k
corresponds to the divisor at index k: column 0 holds the merged transition
value and column k+1 holds the k-th boundary group's value. -/
theorem c2_divisor_column_correspondence {F E D M TP BP : Type}
    (ops : Ops F E D M) (air : Air F E D M TP BP) (coin : PublicCoin TP BP)
    (cfg : EvalConfig) (observed_degrees : List (List F) → List Nat)
    (trace : TraceTable F) (domain : StarkDomain F)
    (ev : ConstraintEvaluator F E D M TP BP)
    (hev : ev = ConstraintEvaluator.new ops air coin) :
    ev.divisors =
      ops.from_transition air.context ::
        (air.get_boundary_constraints
          coin.get_boundary_coefficient_prng).map RawBoundaryGroup.divisor ∧
    ev.boundary_constraints.length =
      (air.get_boundary_constraints
        coin.get_boundary_coefficient_prng).length ∧
    ∀ t, ConstraintEvaluator.evaluate ops ev cfg observed_degrees trace
        domain = EvalOutcome.ok t →
      t.divisors = ev.divisors ∧
      t.rows = (List.range domain.ce_domain_size).map
        (row_at ops ev trace domain ev.divisors.length) ∧
      ∀ s k g, s < domain.ce_domain_size →
        ev.boundary_constraints[k]? = some g →
        (t.rows.getD s []).getD (k + 1) ops.ezero =
          g.evaluate
            (trace.read_frame (domain.ce_step_to_lde_info s).1).current s
            (domain.ce_step_to_lde_info s).2
            (ops.efrom
              (ops.fexp (domain.ce_step_to_lde_info s).2
                g.degree_adjustment)) := by
  have hdivs : ev.divisors =
      ops.from_transition air.context ::
        (air.get_boundary_constraints
          coin.get_boundary_coefficient_prng).map RawBoundaryGroup.divisor := by
    rw [hev]
    simp [ConstraintEvaluator.new, build_boundary_divisors]
  have hblen : ev.boundary_constraints.length =
      (air.get_boundary_constraints
        coin.get_boundary_coefficient_prng).length := by
    rw [hev]
    simp [ConstraintEvaluator.new, build_boundary_length]
  have hC : ev.divisors.length - 1 = ev.boundary_constraints.length := by
    rw [hdivs, hblen]
    simp
  refine ⟨hdivs, hblen, ?_⟩
  intro t hok
  rw [evaluate_ok_filled ops ev cfg observed_degrees trace domain t hok]
  refine ⟨rfl, rfl, ?_⟩
  intro s k g hs hk
  obtain ⟨hkG, _⟩ := List.getElem?_eq_some_iff.mp hk
  rw [filled_table_row ops ev cfg trace domain s hs, row_at,
    List.getD_cons_succ]
  rw [hC]
  have htake :
      ((ev.boundary_constraints.map
          (fun gg =>
            gg.evaluate
              (trace.read_frame (domain.ce_step_to_lde_info s).1).current s
              (domain.ce_step_to_lde_info s).2
              (ops.efrom
                (ops.fexp (domain.ce_step_to_lde_info s).2
                  gg.degree_adjustment)))).take
          ev.boundary_constraints.length) =
        ev.boundary_constraints.map
          (fun gg =>
            gg.evaluate
              (trace.read_frame (domain.ce_step_to_lde_info s).1).current s
              (domain.ce_step_to_lde_info s).2
              (ops.efrom
                (ops.fexp (domain.ce_step_to_lde_info s).2
                  gg.degree_adjustment))) := by
    apply List.take_of_length_le
    simp
  rw [htake, Nat.sub_self, List.replicate_zero, List.append_nil]
  simp [List.getD_eq_getElem?_getD, List.getElem?_map, hk]

/-- C2 witness: in the concrete run the divisor list is the transition divisor
followed by the two boundary divisors in order, the table keeps it, and column
1 of row 0 is the first boundary group evaluated at the current row. -/
theorem c2_witness :
    cEv.divisors =
      cOps.from_transition cAir.context ::
        (cAir.get_boundary_constraints
          cCoin.get_boundary_coefficient_prng).map RawBoundaryGroup.divisor ∧
    (filled_table cOps cEv cCfgRelease cTrace cDomain).divisors =
      cEv.divisors ∧
    ((filled_table cOps cEv cCfgRelease cTrace cDomain).rows.getD 0
        []).getD 1 cOps.ezero =
      (⟨2, fun state _step _x xp => (state.headD 0 - 7) * xp⟩ :
          BoundaryConstraintGroup Int Int).evaluate
        (cTrace.read_frame (cDomain.ce_step_to_lde_info 0).1).current 0
        (cDomain.ce_step_to_lde_info 0).2
        (cOps.efrom (cOps.fexp (cDomain.ce_step_to_lde_info 0).2 2)) :=
  ⟨(c2_divisor_column_correspondence cOps cAir cCoin cCfgRelease cOracleGood
      cTrace cDomain cEv rfl).1,
    ((c2_divisor_column_correspondence cOps cAir cCoin cCfgRelease
        cOracleGood cTrace cDomain cEv rfl).2.2
      (filled_table cOps cEv cCfgRelease cTrace cDomain) (by decide)).1,
    ((c2_divisor_column_correspondence cOps cAir cCoin cCfgRelease
        cOracleGood cTrace cDomain cEv rfl).2.2
      (filled_table cOps cEv cCfgRelease cTrace cDomain) (by decide)).2.2 0 0
      ⟨2, fun state _step _x xp => (state.headD 0 - 7) * xp⟩ (by decide)
      rfl⟩

end Winterfell
